import Mathlib

/-!
Shallow embedding of the rust_strings library (src/lib.rs and src/splits.rs).

A Rust string is modelled as a `List Char` of Unicode scalar values.  Byte
indices (as produced by char_indices and consumed by slicing) are modelled
explicitly, because the splitting code slices at manually computed byte
offsets; a slice at a non-character-boundary or with start > end panics in
Rust, which the model renders as `none`.
-/

/-- Byte width of a scalar value in UTF-8, as in Rust char::len_utf8. -/
def len_utf8 (c : Char) : Nat :=
  if c.toNat < 0x80 then 1
  else if c.toNat < 0x800 then 2
  else if c.toNat < 0x10000 then 3
  else 4

/-- UTF-8 byte length of a string, as in Rust str::len. -/
def byteLen : List Char → Nat
  | [] => 0
  | c :: cs => len_utf8 c + byteLen cs

/-- Helper for char_indices: pairs each scalar value with its byte offset,
starting from offset i. -/
def charIndicesFrom : Nat → List Char → List (Nat × Char)
  | _, [] => []
  | i, c :: cs => (i, c) :: charIndicesFrom (i + len_utf8 c) cs

/-- Rust str::char_indices: the scalar values of the string together with
their starting byte offsets. -/
def char_indices (s : List Char) : List (Nat × Char) :=
  charIndicesFrom 0 s

/-- Drop the first a bytes of a string; `none` models the panic that occurs
when a is not a character boundary or exceeds the length. -/
def byteDrop : List Char → Nat → Option (List Char)
  | s, 0 => some s
  | [], _ + 1 => none
  | c :: cs, a + 1 =>
    if len_utf8 c ≤ a + 1 then byteDrop cs (a + 1 - len_utf8 c) else none

/-- Take the first b bytes of a string; `none` models the panic that occurs
when b is not a character boundary or exceeds the length. -/
def byteTake : List Char → Nat → Option (List Char)
  | _, 0 => some []
  | [], _ + 1 => none
  | c :: cs, b + 1 =>
    if len_utf8 c ≤ b + 1 then (byteTake cs (b + 1 - len_utf8 c)).map (fun t => c :: t)
    else none

/-- Rust byte-range slicing s[a..b]; `none` models the panic on a > b, an
out-of-bounds index, or an index that is not a character boundary. -/
def byteSlice (s : List Char) (a b : Nat) : Option (List Char) :=
  if b < a then none
  else (byteDrop s a).bind (fun t => byteTake t (b - a))

/-- Model of Rust char::is_alphanumeric (Unicode Alphabetic or numeric),
realized exactly on the Basic Latin and Latin-1 Supplement ranges that the
development exercises; scalar values above U+00FF are mapped to false. -/
def is_alphanumeric (c : Char) : Bool :=
  decide ((0x30 ≤ c.toNat ∧ c.toNat ≤ 0x39) ∨
    (0x41 ≤ c.toNat ∧ c.toNat ≤ 0x5A) ∨
    (0x61 ≤ c.toNat ∧ c.toNat ≤ 0x7A) ∨
    c.toNat = 0xAA ∨ c.toNat = 0xB2 ∨ c.toNat = 0xB3 ∨ c.toNat = 0xB5 ∨
    c.toNat = 0xB9 ∨ c.toNat = 0xBA ∨
    (0xBC ≤ c.toNat ∧ c.toNat ≤ 0xBE) ∨
    (0xC0 ≤ c.toNat ∧ c.toNat ≤ 0xFF ∧ c.toNat ≠ 0xD7 ∧ c.toNat ≠ 0xF7))

/-- Rust char::to_ascii_lowercase: lowercases the ASCII letters A-Z and
leaves every other scalar value unchanged. -/
def to_ascii_lowercase (c : Char) : Char :=
  if 0x41 ≤ c.toNat ∧ c.toNat ≤ 0x5A then Char.ofNat (c.toNat + 32) else c

/-- Rust str::eq_ignore_ascii_case: equality after ASCII-lowercasing each
side (byte-wise in Rust, which over valid UTF-8 coincides with scalar-wise
ASCII lowercasing since only the bytes 0x41-0x5A are affected). -/
def eq_ignore_ascii_case (a b : List Char) : Bool :=
  decide (a.map to_ascii_lowercase = b.map to_ascii_lowercase)

/-- src/lib.rs string_reverse: the scalar values in reverse order. -/
def string_reverse (s : List Char) : List Char :=
  s.reverse

/-- src/lib.rs check_for_palindrome: filter to alphanumerics, reverse, and
compare ignoring ASCII case. -/
def check_for_palindrome (s : List Char) : Bool :=
  let cleaned := s.filter is_alphanumeric
  let reversed := string_reverse cleaned
  eq_ignore_ascii_case cleaned reversed

/-- src/lib.rs count_chars: number of occurrences of c in s. -/
def count_chars (c : Char) (s : List Char) : Nat :=
  (s.filter (fun x => x == c)).length

/-- Rust String::from on a borrowed slice: in the scalar-value model an
owned copy has the same content. -/
def string_from (s : List Char) : List Char :=
  s

/-- Inner loop of split_on_delimiters (src/splits.rs lines 45-51): for one
scalar value c at byte offset i, walk the delimiter list; each match pushes
the slice s[start..i] and moves start past c.  A second match of the same
scalar value slices with start > i, which panics (`none`). -/
def sodChar (s : List Char) (i : Nat) (c : Char) :
    List Char → Nat → List (List Char) → Option (Nat × List (List Char))
  | [], start, acc => some (start, acc)
  | d :: ds, start, acc =>
    if c = d then
      match byteSlice s start i with
      | none => none
      | some seg => sodChar s i c ds (i + len_utf8 c) (acc ++ [seg])
    else sodChar s i c ds start acc

/-- Outer loop of split_on_delimiters over char_indices. -/
def sodLoop (s : List Char) (delims : List Char) :
    List (Nat × Char) → Nat → List (List Char) → Option (Nat × List (List Char))
  | [], start, acc => some (start, acc)
  | (i, c) :: rest, start, acc =>
    match sodChar s i c delims start acc with
    | none => none
    | some (start1, acc1) => sodLoop s delims rest start1 acc1

/-- src/splits.rs split_on_delimiters: scan the string, cutting at every
delimiter match, push the tail if nonempty, then drop empty segments.
`none` models a panic. -/
def split_on_delimiters (s : List Char) (delims : List Char) : Option (List (List Char)) :=
  match sodLoop s delims (char_indices s) 0 [] with
  | none => none
  | some (start, out) =>
    match (if start < byteLen s then (byteDrop s start).map (fun t => out ++ [t]) else some out) with
    | none => none
    | some out1 => some (out1.filter (fun item => !item.isEmpty))

/-- Inner loop of split_on_delimiters_returns_owned (src/splits.rs lines
82-88); identical to sodChar except each pushed slice goes through
to_owned/parse, modelled by string_from. -/
def sodOwnedChar (s : List Char) (i : Nat) (c : Char) :
    List Char → Nat → List (List Char) → Option (Nat × List (List Char))
  | [], start, acc => some (start, acc)
  | d :: ds, start, acc =>
    if c = d then
      match byteSlice s start i with
      | none => none
      | some seg => sodOwnedChar s i c ds (i + len_utf8 c) (acc ++ [string_from seg])
    else sodOwnedChar s i c ds start acc

/-- Outer loop of split_on_delimiters_returns_owned. -/
def sodOwnedLoop (s : List Char) (delims : List Char) :
    List (Nat × Char) → Nat → List (List Char) → Option (Nat × List (List Char))
  | [], start, acc => some (start, acc)
  | (i, c) :: rest, start, acc =>
    match sodOwnedChar s i c delims start acc with
    | none => none
    | some (start1, acc1) => sodOwnedLoop s delims rest start1 acc1

/-- src/splits.rs split_on_delimiters_returns_owned. -/
def split_on_delimiters_returns_owned (s : List Char) (delims : List Char) :
    Option (List (List Char)) :=
  match sodOwnedLoop s delims (char_indices s) 0 [] with
  | none => none
  | some (start, out) =>
    match (if start < byteLen s then
        (byteDrop s start).map (fun t => out ++ [string_from t]) else some out) with
    | none => none
    | some out1 => some (out1.filter (fun item => !item.isEmpty))

/-- Loop of split_keeping_delimiter (src/splits.rs lines 139-144): at each
match push s[start..=i] and set start to i + 1.  For a delimiter wider than
one byte, i + 1 is not a character boundary, so the slice panics (`none`). -/
def skdLoop (s : List Char) (d : Char) :
    List (Nat × Char) → Nat → List (List Char) → Option (List (List Char))
  | [], _, acc => some acc
  | (i, c) :: rest, start, acc =>
    if c = d then
      match byteSlice s start (i + 1) with
      | none => none
      | some seg => skdLoop s d rest (i + 1) (acc ++ [seg])
    else skdLoop s d rest start acc

/-- src/splits.rs split_keeping_delimiter. -/
def split_keeping_delimiter (s : List Char) (d : Char) : Option (List (List Char)) :=
  skdLoop s d (char_indices s) 0 []

/-- Loop of split_keeping_delimiter_returns_owned (src/splits.rs lines
170-175); identical to skdLoop except each slice is copied via to_owned. -/
def skdOwnedLoop (s : List Char) (d : Char) :
    List (Nat × Char) → Nat → List (List Char) → Option (List (List Char))
  | [], _, acc => some acc
  | (i, c) :: rest, start, acc =>
    if c = d then
      match byteSlice s start (i + 1) with
      | none => none
      | some seg => skdOwnedLoop s d rest (i + 1) (acc ++ [string_from seg])
    else skdOwnedLoop s d rest start acc

/-- src/splits.rs split_keeping_delimiter_returns_owned. -/
def split_keeping_delimiter_returns_owned (s : List Char) (d : Char) :
    Option (List (List Char)) :=
  skdOwnedLoop s d (char_indices s) 0 []

/-- Rust str::split(char) over the scalar-value model: cut at every
occurrence of d, keeping empty segments; the empty string yields one empty
segment. -/
def splitChar (d : Char) : List Char → List (List Char)
  | [] => [[]]
  | c :: cs =>
    if c = d then [] :: splitChar d cs
    else
      match splitChar d cs with
      | [] => [[c]]
      | s :: ss => (c :: s) :: ss

/-- Split off the text before the first occurrence of d, together with the
rest after it; none when d does not occur. -/
def splitFirst (d : Char) : List Char → Option (List Char × List Char)
  | [] => none
  | c :: cs =>
    if c = d then some ([], cs)
    else (splitFirst d cs).map (fun p => (c :: p.1, p.2))

/-- Rust str::splitn(n, char): at most n segments, the last absorbing the
remainder; n = 0 yields no segments. -/
def splitnChar : Nat → Char → List Char → List (List Char)
  | 0, _, _ => []
  | 1, _, s => [s]
  | n + 2, d, s =>
    match splitFirst d s with
    | none => [s]
    | some (pre, post) => pre :: splitnChar (n + 1) d post

/-- src/splits.rs split_into_n_parts: compare the expected segment count
(occurrences of the delimiter + 1) with n; split exactly, split then pad
with empties, or splitn. -/
def split_into_n_parts (s : List Char) (d : Char) (n : Nat) : List (List Char) :=
  let count_expect_segments := (s.filter (fun x => x == d)).length + 1
  if count_expect_segments = n then splitChar d s
  else if count_expect_segments < n then
    splitChar d s ++ List.replicate (n - count_expect_segments) []
  else splitnChar n d s

/-- src/splits.rs split_into_n_parts_returns_owned: the same three cases,
each segment copied via String::from. -/
def split_into_n_parts_returns_owned (s : List Char) (d : Char) (n : Nat) :
    List (List Char) :=
  let count_expect_segments := (s.filter (fun x => x == d)).length + 1
  if count_expect_segments = n then (splitChar d s).map string_from
  else if count_expect_segments < n then
    (splitChar d s).map string_from ++
      List.replicate (n - count_expect_segments) (string_from [])
  else (splitnChar n d s).map string_from

/-- Character-level description of split_keeping_delimiter's output for a
one-byte delimiter: cur is the text accumulated since the last cut. -/
def skdChars (d : Char) (cur : List Char) : List Char → List (List Char)
  | [] => []
  | c :: cs =>
    if c = d then (cur ++ [c]) :: skdChars d [] cs
    else skdChars d (cur ++ [c]) cs

/-- The prefix of a string up to and including the last occurrence of d
(empty when d does not occur). -/
def prefixThroughLast (d : Char) : List Char → List Char
  | [] => []
  | c :: cs =>
    match prefixThroughLast d cs with
    | [] => if c = d then [c] else []
    | r => c :: r

/-- Concatenation with the delimiter re-inserted between the segments. -/
def interD (d : Char) : List (List Char) → List Char
  | [] => []
  | [x] => x
  | x :: xs => x ++ d :: interD d xs

/-- Modelled from the spec: the case-insensitive comparison over all
Unicode scalar values that the claim attributes to the palindrome check
(src has only the ASCII-case-insensitive one); realized by Unicode simple
case folding on the Basic Latin and Latin-1 ranges exercised here. -/
def unicode_fold (c : Char) : Char :=
  if 0x41 ≤ c.toNat ∧ c.toNat ≤ 0x5A then Char.ofNat (c.toNat + 32)
  else if 0xC0 ≤ c.toNat ∧ c.toNat ≤ 0xDE ∧ c.toNat ≠ 0xD7 then Char.ofNat (c.toNat + 32)
  else c

/-- Modelled from the spec: the palindrome predicate C4 describes, with the
case-insensitive comparison taken over all Unicode scalar values. -/
def palindrome_per_claim (s : List Char) : Prop :=
  (s.filter is_alphanumeric).map unicode_fold =
    ((s.filter is_alphanumeric).reverse).map unicode_fold

theorem len_utf8_pos (c : Char) : 0 < len_utf8 c := by
  unfold len_utf8
  split
  · omega
  split
  · omega
  split <;> omega

theorem byteLen_append (u v : List Char) : byteLen (u ++ v) = byteLen u + byteLen v := by
  induction u with
  | nil => simp [byteLen]
  | cons c u ih => simp [byteLen, ih]; omega

theorem byteLen_eq_zero (s : List Char) : byteLen s = 0 ↔ s = [] := by
  cases s with
  | nil => simp [byteLen]
  | cons c cs =>
    have := len_utf8_pos c
    simp [byteLen]
    omega

theorem byteDrop_cons_pos (c : Char) (cs : List Char) (a : Nat) (h : 0 < a) :
    byteDrop (c :: cs) a = if len_utf8 c ≤ a then byteDrop cs (a - len_utf8 c) else none := by
  cases a with
  | zero => omega
  | succ b => rfl

theorem byteTake_cons_pos (c : Char) (cs : List Char) (b : Nat) (h : 0 < b) :
    byteTake (c :: cs) b =
      if len_utf8 c ≤ b then (byteTake cs (b - len_utf8 c)).map (fun t => c :: t)
      else none := by
  cases b with
  | zero => omega
  | succ b => rfl

theorem byteDrop_append (u w : List Char) : byteDrop (u ++ w) (byteLen u) = some w := by
  induction u with
  | nil => simp [byteLen, byteDrop]
  | cons c u ih =>
    have hc := len_utf8_pos c
    rw [List.cons_append, byteLen,
      byteDrop_cons_pos c (u ++ w) (len_utf8 c + byteLen u) (by omega),
      if_pos (by omega)]
    simpa using ih

theorem byteTake_append (w x : List Char) (j : Nat) :
    byteTake (w ++ x) (byteLen w + j) = (byteTake x j).map (fun t => w ++ t) := by
  induction w with
  | nil =>
    simp [byteLen]
  | cons c w ih =>
    have hc := len_utf8_pos c
    rw [List.cons_append, byteLen,
      byteTake_cons_pos c (w ++ x) (len_utf8 c + byteLen w + j) (by omega),
      if_pos (by omega)]
    have : len_utf8 c + byteLen w + j - len_utf8 c = byteLen w + j := by omega
    rw [this, ih]
    cases byteTake x j <;> simp

theorem byteTake_exact (w x : List Char) : byteTake (w ++ x) (byteLen w) = some w := by
  have h := byteTake_append w x 0
  simpa [byteTake] using h

theorem byteSlice_exact (u w x : List Char) :
    byteSlice (u ++ (w ++ x)) (byteLen u) (byteLen u + byteLen w) = some w := by
  unfold byteSlice
  rw [if_neg (by omega), byteDrop_append, Option.some_bind]
  have h2 : byteLen u + byteLen w - byteLen u = byteLen w := by omega
  rw [h2, byteTake_exact]

theorem byteTake_one_of_wide (c : Char) (v : List Char) (h : 2 ≤ len_utf8 c) :
    byteTake (c :: v) 1 = none := by
  rw [byteTake_cons_pos c v 1 (by omega), if_neg (by omega)]

theorem byteSlice_mid_char (u w : List Char) (c : Char) (v : List Char)
    (h : 2 ≤ len_utf8 c) :
    byteSlice (u ++ (w ++ c :: v)) (byteLen u) (byteLen u + byteLen w + 1) = none := by
  unfold byteSlice
  rw [if_neg (by omega), byteDrop_append, Option.some_bind]
  have h2 : byteLen u + byteLen w + 1 - byteLen u = byteLen w + 1 := by omega
  rw [h2, byteTake_append, byteTake_one_of_wide c v h]
  rfl

theorem splitChar_cons_eq (d : Char) (cs : List Char) :
    splitChar d (d :: cs) = [] :: splitChar d cs := by
  simp [splitChar]

theorem splitFirst_cons_eq (d : Char) (cs : List Char) :
    splitFirst d (d :: cs) = some ([], cs) := by
  simp [splitFirst]

theorem splitFirst_cons_ne (d c : Char) (cs : List Char) (h : c ≠ d) :
    splitFirst d (c :: cs) = (splitFirst d cs).map (fun p => (c :: p.1, p.2)) := by
  simp [splitFirst, h]

theorem splitChar_ne_nil (d : Char) (s : List Char) : splitChar d s ≠ [] := by
  cases s with
  | nil => simp [splitChar]
  | cons c cs =>
    simp only [splitChar]
    split
    · simp
    · split <;> simp

theorem splitChar_length (d : Char) (s : List Char) :
    (splitChar d s).length = (s.filter (fun x => x == d)).length + 1 := by
  induction s with
  | nil => simp [splitChar]
  | cons c cs ih =>
    by_cases h : c = d
    · subst h
      simp [splitChar, List.filter_cons, ih]
    · have hb : (c == d) = false := by simp [h]
      simp only [splitChar, if_neg h, List.filter_cons, hb]
      cases hm : splitChar d cs with
      | nil => exact absurd hm (splitChar_ne_nil d cs)
      | cons s1 ss =>
        rw [hm] at ih
        simpa using ih

theorem interD_splitChar (d : Char) (s : List Char) : interD d (splitChar d s) = s := by
  induction s with
  | nil => simp [splitChar, interD]
  | cons c cs ih =>
    by_cases h : c = d
    · subst h
      simp only [splitChar, if_pos rfl]
      cases hm : splitChar c cs with
      | nil => exact absurd hm (splitChar_ne_nil c cs)
      | cons s1 ss =>
        rw [hm] at ih
        simp [interD, ih]
    · simp only [splitChar, if_neg h]
      cases hm : splitChar d cs with
      | nil => exact absurd hm (splitChar_ne_nil d cs)
      | cons s1 ss =>
        rw [hm] at ih
        cases ss with
        | nil => simpa [interD] using congrArg (fun t => c :: t) ih
        | cons s2 ss2 => simpa [interD] using congrArg (fun t => c :: t) ih

theorem not_mem_splitChar (d : Char) (s : List Char) :
    ∀ seg ∈ splitChar d s, d ∉ seg := by
  induction s with
  | nil =>
    intro seg hseg
    simp [splitChar] at hseg
    simp [hseg]
  | cons c cs ih =>
    intro seg hseg
    by_cases h : c = d
    · subst h
      rw [splitChar_cons_eq, List.mem_cons] at hseg
      cases hseg with
      | inl h1 => rw [h1]; simp
      | inr h1 => exact ih seg h1
    · simp only [splitChar, if_neg h] at hseg
      cases hm : splitChar d cs with
      | nil => exact absurd hm (splitChar_ne_nil d cs)
      | cons s1 ss =>
        rw [hm] at hseg
        simp only [List.mem_cons] at hseg
        rcases hseg with rfl | hseg
        · intro hmem
          rcases List.mem_cons.mp hmem with rfl | hmem1
          · exact h rfl
          · exact ih s1 (by rw [hm]; exact List.mem_cons_self s1 ss) hmem1
        · exact ih seg (by rw [hm]; exact List.mem_cons_of_mem s1 hseg)

theorem count_filter_pos_iff (d : Char) (s : List Char) :
    0 < (s.filter (fun x => x == d)).length ↔ d ∈ s := by
  induction s with
  | nil => simp
  | cons c cs ih =>
    by_cases h : c = d
    · subst h
      simp [List.filter_cons]
    · have hb : (c == d) = false := by simp [h]
      simp [List.filter_cons, hb, ih, Ne.symm h, h]

theorem splitFirst_none_iff (d : Char) (s : List Char) :
    splitFirst d s = none ↔ d ∉ s := by
  induction s with
  | nil => simp [splitFirst]
  | cons c cs ih =>
    by_cases h : c = d
    · subst h
      rw [splitFirst_cons_eq]
      simp
    · rw [splitFirst_cons_ne d c cs h, Option.map_eq_none', ih, List.mem_cons]
      have hdc : d ≠ c := fun e => h e.symm
      simp [hdc]

theorem splitFirst_some_count (d : Char) (s : List Char) (pre post : List Char)
    (h : splitFirst d s = some (pre, post)) :
    (s.filter (fun x => x == d)).length = (post.filter (fun x => x == d)).length + 1 := by
  induction s generalizing pre with
  | nil => simp [splitFirst] at h
  | cons c cs ih =>
    by_cases hc : c = d
    · subst hc
      rw [splitFirst_cons_eq] at h
      simp only [Option.some_inj, Prod.mk.injEq] at h
      obtain ⟨h1, h2⟩ := h
      subst h2
      simp [List.filter_cons]
    · have hb : (c == d) = false := by simp [hc]
      rw [splitFirst_cons_ne d c cs hc] at h
      cases hm : splitFirst d cs with
      | none => rw [hm] at h; simp at h
      | some p =>
        rw [hm] at h
        simp only [Option.map_some', Option.some_inj, Prod.mk.injEq] at h
        obtain ⟨h1, h2⟩ := h
        subst h2
        have := ih p.1 (by rw [hm])
        simpa [List.filter_cons, hb] using this

theorem splitnChar_length (d : Char) (n : Nat) (s : List Char)
    (h : n ≤ (s.filter (fun x => x == d)).length + 1) :
    (splitnChar n d s).length = n := by
  induction n generalizing s with
  | zero => simp [splitnChar]
  | succ m ih =>
    cases m with
    | zero => simp [splitnChar]
    | succ m1 =>
      have hpos : 0 < (s.filter (fun x => x == d)).length := by omega
      have hmem : d ∈ s := (count_filter_pos_iff d s).mp hpos
      cases hsf : splitFirst d s with
      | none => exact absurd hmem (by simpa using (splitFirst_none_iff d s).mp hsf)
      | some p =>
        obtain ⟨pre, post⟩ := p
        have hcount := splitFirst_some_count d s pre post hsf
        simp only [splitnChar, hsf, List.length_cons]
        rw [ih post (by omega)]

theorem skdLoop_cons_ne (s : List Char) (d : Char) (i : Nat) (c : Char)
    (rest : List (Nat × Char)) (start : Nat) (acc : List (List Char)) (h : c ≠ d) :
    skdLoop s d ((i, c) :: rest) start acc = skdLoop s d rest start acc := by
  simp [skdLoop, h]

theorem skdLoop_cons_some (s : List Char) (d : Char) (i : Nat)
    (rest : List (Nat × Char)) (start : Nat) (acc : List (List Char)) (seg : List Char)
    (hsl : byteSlice s start (i + 1) = some seg) :
    skdLoop s d ((i, d) :: rest) start acc = skdLoop s d rest (i + 1) (acc ++ [seg]) := by
  simp [skdLoop, hsl]

theorem skdLoop_cons_none (s : List Char) (d : Char) (i : Nat)
    (rest : List (Nat × Char)) (start : Nat) (acc : List (List Char))
    (hsl : byteSlice s start (i + 1) = none) :
    skdLoop s d ((i, d) :: rest) start acc = none := by
  simp [skdLoop, hsl]

theorem skdLoop_no_match (s : List Char) (d : Char) (v : List Char) (k start : Nat)
    (acc : List (List Char)) (h : d ∉ v) :
    skdLoop s d (charIndicesFrom k v) start acc = some acc := by
  induction v generalizing k with
  | nil => simp [charIndicesFrom, skdLoop]
  | cons c cs ih =>
    have hc : c ≠ d := fun e => h (by rw [e]; exact List.mem_cons_self d cs)
    rw [charIndicesFrom, skdLoop_cons_ne s d k c _ start acc hc]
    exact ih _ (fun hm => h (List.mem_cons_of_mem c hm))

theorem skdChars_cons_eq (d : Char) (cur cs : List Char) :
    skdChars d cur (d :: cs) = (cur ++ [d]) :: skdChars d [] cs := by
  simp [skdChars]

theorem skdChars_cons_ne (d c : Char) (cur cs : List Char) (h : c ≠ d) :
    skdChars d cur (c :: cs) = skdChars d (cur ++ [c]) cs := by
  simp [skdChars, h]

theorem skdLoop_single_byte (s : List Char) (d : Char) (hd : len_utf8 d = 1) :
    ∀ (v u cur : List Char) (acc : List (List Char)),
      s = u ++ (cur ++ v) →
      skdLoop s d (charIndicesFrom (byteLen u + byteLen cur) v) (byteLen u) acc =
        some (acc ++ skdChars d cur v) := by
  intro v
  induction v with
  | nil =>
    intro u cur acc hs
    simp [charIndicesFrom, skdLoop, skdChars]
  | cons c cs ih =>
    intro u cur acc hs
    by_cases hc : c = d
    · subst hc
      rw [charIndicesFrom]
      have hslice : byteSlice s (byteLen u) (byteLen u + byteLen cur + 1) = some (cur ++ [c]) := by
        have hs2 : s = u ++ ((cur ++ [c]) ++ cs) := by rw [hs]; simp
        have hb : byteLen (cur ++ [c]) = byteLen cur + 1 := by
          rw [byteLen_append]
          simp [byteLen, hd]
        have hx := byteSlice_exact u (cur ++ [c]) cs
        rw [hb, ← Nat.add_assoc, ← hs2] at hx
        exact hx
      rw [skdLoop_cons_some s c (byteLen u + byteLen cur) _ (byteLen u) acc (cur ++ [c]) hslice]
      have happ : s = (u ++ (cur ++ [c])) ++ ([] ++ cs) := by rw [hs]; simp
      have h2 := ih (u ++ (cur ++ [c])) [] (acc ++ [cur ++ [c]]) happ
      have e1 : byteLen (u ++ (cur ++ [c])) = byteLen u + byteLen cur + 1 := by
        rw [byteLen_append, byteLen_append]
        simp [byteLen, hd]
        omega
      rw [e1] at h2
      have e0 : byteLen ([] : List Char) = 0 := rfl
      rw [e0, Nat.add_zero] at h2
      rw [hd, h2, skdChars_cons_eq]
      simp
    · rw [charIndicesFrom, skdLoop_cons_ne s d _ c _ (byteLen u) acc hc]
      have happ : s = u ++ ((cur ++ [c]) ++ cs) := by rw [hs]; simp
      have h2 := ih u (cur ++ [c]) acc happ
      have e1 : byteLen u + byteLen (cur ++ [c]) = byteLen u + byteLen cur + len_utf8 c := by
        rw [byteLen_append]
        simp [byteLen]
        omega
      rw [e1] at h2
      rw [skdChars_cons_ne d c cur cs hc]
      exact h2

theorem skdLoop_wide_none (s : List Char) (d : Char) (hd : 2 ≤ len_utf8 d) :
    ∀ (v u cur : List Char) (acc : List (List Char)),
      s = u ++ (cur ++ v) → d ∈ v →
      skdLoop s d (charIndicesFrom (byteLen u + byteLen cur) v) (byteLen u) acc = none := by
  intro v
  induction v with
  | nil =>
    intro u cur acc hs hmem
    simp at hmem
  | cons c cs ih =>
    intro u cur acc hs hmem
    by_cases hc : c = d
    · subst hc
      rw [charIndicesFrom]
      apply skdLoop_cons_none
      rw [hs]
      exact byteSlice_mid_char u cur c cs hd
    · rw [charIndicesFrom, skdLoop_cons_ne s d _ c _ (byteLen u) acc hc]
      have hmem1 : d ∈ cs := by
        cases List.mem_cons.mp hmem with
        | inl h1 => exact absurd h1.symm hc
        | inr h1 => exact h1
      have happ : s = u ++ ((cur ++ [c]) ++ cs) := by rw [hs]; simp
      have h2 := ih u (cur ++ [c]) acc happ hmem1
      have e1 : byteLen u + byteLen (cur ++ [c]) = byteLen u + byteLen cur + len_utf8 c := by
        rw [byteLen_append]
        simp [byteLen]
        omega
      rw [e1] at h2
      exact h2

theorem split_keeping_delimiter_single (s : List Char) (d : Char) (hd : len_utf8 d = 1) :
    split_keeping_delimiter s d = some (skdChars d [] s) := by
  have h := skdLoop_single_byte s d hd s [] [] [] (by simp)
  simpa [split_keeping_delimiter, char_indices, byteLen] using h

theorem split_keeping_delimiter_wide (s : List Char) (d : Char) (hd : 2 ≤ len_utf8 d)
    (hmem : d ∈ s) : split_keeping_delimiter s d = none := by
  have h := skdLoop_wide_none s d hd s [] [] [] (by simp) hmem
  simpa [split_keeping_delimiter, char_indices, byteLen] using h

theorem skdChars_getLast (d : Char) :
    ∀ (v cur : List Char), ∀ seg ∈ skdChars d cur v, seg.getLast? = some d := by
  intro v
  induction v with
  | nil =>
    intro cur seg h
    simp [skdChars] at h
  | cons c cs ih =>
    intro cur seg hseg
    by_cases hc : c = d
    · subst hc
      rw [skdChars_cons_eq] at hseg
      cases List.mem_cons.mp hseg with
      | inl h1 => rw [h1]; exact List.getLast?_concat ..
      | inr h1 => exact ih [] seg h1
    · rw [skdChars_cons_ne d c cur cs hc] at hseg
      exact ih (cur ++ [c]) seg hseg

theorem prefixThroughLast_eq_nil (d : Char) (s : List Char) :
    prefixThroughLast d s = [] ↔ d ∉ s := by
  induction s with
  | nil => simp [prefixThroughLast]
  | cons c cs ih =>
    simp only [prefixThroughLast]
    cases hm : prefixThroughLast d cs with
    | nil =>
      rw [hm] at ih
      by_cases hc : c = d
      · subst hc
        simp
      · have hdc : d ≠ c := fun e => hc e.symm
        simp [hc, hdc, ih.mp rfl]
    | cons r1 rs =>
      have hmem : d ∈ cs := by
        by_contra hnot
        rw [← ih] at hnot
        rw [hm] at hnot
        simp at hnot
      simp [hmem]

theorem skdChars_flatten (d : Char) :
    ∀ (v cur : List Char),
      (skdChars d cur v).flatten =
        if d ∈ v then cur ++ prefixThroughLast d v else [] := by
  intro v
  induction v with
  | nil =>
    intro cur
    simp [skdChars]
  | cons c cs ih =>
    intro cur
    by_cases hc : c = d
    · subst hc
      rw [skdChars_cons_eq, List.flatten_cons, ih []]
      by_cases hmem : c ∈ cs
      · have hr : prefixThroughLast c cs ≠ [] := by
          rw [Ne, prefixThroughLast_eq_nil]
          simp [hmem]
        simp only [prefixThroughLast, if_pos hmem, List.mem_cons, true_or, if_pos]
        cases hm : prefixThroughLast c cs with
        | nil => exact absurd hm hr
        | cons r1 rs => simp
      · have hr : prefixThroughLast c cs = [] := (prefixThroughLast_eq_nil c cs).mpr hmem
        simp only [if_neg hmem, prefixThroughLast, hr, List.mem_cons, true_or, if_pos]
        simp
    · rw [skdChars_cons_ne d c cur cs hc, ih (cur ++ [c])]
      have hdc : d ≠ c := fun e => hc e.symm
      by_cases hmem : d ∈ cs
      · have hr : prefixThroughLast d cs ≠ [] := by
          rw [Ne, prefixThroughLast_eq_nil]
          simp [hmem]
        simp only [prefixThroughLast, if_pos hmem, List.mem_cons, hmem, or_true, if_pos]
        cases hm : prefixThroughLast d cs with
        | nil => exact absurd hm hr
        | cons r1 rs => simp
      · have hnm : d ∉ c :: cs := by simp [hdc, hmem]
        simp [hmem, hnm]

theorem sodLoop_empty_delims (s : List Char) (ixs : List (Nat × Char)) (start : Nat)
    (acc : List (List Char)) :
    sodLoop s [] ixs start acc = some (start, acc) := by
  induction ixs generalizing start acc with
  | nil => simp [sodLoop]
  | cons p rest ih =>
    obtain ⟨i, c⟩ := p
    simp only [sodLoop, sodChar]
    exact ih start acc

theorem sodOwnedChar_eq_sodChar (s : List Char) (i : Nat) (c : Char) (ds : List Char)
    (start : Nat) (acc : List (List Char)) :
    sodOwnedChar s i c ds start acc = sodChar s i c ds start acc := by
  induction ds generalizing start acc with
  | nil => rfl
  | cons d ds ih =>
    simp only [sodOwnedChar, sodChar, string_from]
    by_cases h : c = d
    · rw [if_pos h, if_pos h]
      cases byteSlice s start i with
      | none => rfl
      | some seg => exact ih _ _
    · rw [if_neg h, if_neg h]
      exact ih _ _

theorem sodOwnedLoop_eq_sodLoop (s : List Char) (delims : List Char)
    (ixs : List (Nat × Char)) (start : Nat) (acc : List (List Char)) :
    sodOwnedLoop s delims ixs start acc = sodLoop s delims ixs start acc := by
  induction ixs generalizing start acc with
  | nil => rfl
  | cons p rest ih =>
    obtain ⟨i, c⟩ := p
    simp only [sodOwnedLoop, sodLoop, sodOwnedChar_eq_sodChar]
    cases sodChar s i c delims start acc with
    | none => rfl
    | some p1 =>
      obtain ⟨start1, acc1⟩ := p1
      exact ih _ _

theorem skdOwnedLoop_eq_skdLoop (s : List Char) (d : Char)
    (ixs : List (Nat × Char)) (start : Nat) (acc : List (List Char)) :
    skdOwnedLoop s d ixs start acc = skdLoop s d ixs start acc := by
  induction ixs generalizing start acc with
  | nil => rfl
  | cons p rest ih =>
    obtain ⟨i, c⟩ := p
    simp only [skdOwnedLoop, skdLoop, string_from]
    by_cases h : c = d
    · rw [if_pos h, if_pos h]
      cases byteSlice s start (i + 1) with
      | none => rfl
      | some seg => exact ih _ _
    · rw [if_neg h, if_neg h]
      exact ih _ _

/-- C1: the claim that every public function is total fails: with the
multi-byte delimiter é, split_keeping_delimiter slices inside the
character's encoding and panics (`none`), and split_on_delimiters panics
when a delimiter is listed twice and matches. -/
theorem splitting_panics_on_valid_input :
    split_keeping_delimiter ['é'] 'é' = none ∧
    split_on_delimiters ['x', '!', 'y'] ['!', '!'] = none := by
  decide

/-- C2: the claim that redundantly listing a delimiter does not change
behavior fails: with delimiters [,, ,] on a,b the second match slices with
start > end and panics, while the deduplicated list returns [a],[b]. -/
theorem split_on_delimiters_duplicate_diverges :
    split_on_delimiters ['a', ',', 'b'] [',', ','] = none ∧
    split_on_delimiters ['a', ',', 'b'] [','] = some [['a'], ['b']] := by
  decide

/-- C3: split_into_n_parts always returns exactly n segments, for every
input string, delimiter, and n (including n = 0 and n beyond the number of
delimiter occurrences plus one). -/
theorem split_into_n_parts_length (s : List Char) (d : Char) (n : Nat) :
    (split_into_n_parts s d n).length = n := by
  simp only [split_into_n_parts]
  by_cases h1 : (s.filter (fun x => x == d)).length + 1 = n
  · rw [if_pos h1, splitChar_length]
    exact h1
  · rw [if_neg h1]
    by_cases h2 : (s.filter (fun x => x == d)).length + 1 < n
    · rw [if_pos h2, List.length_append, splitChar_length, List.length_replicate]
      omega
    · rw [if_neg h2]
      exact splitnChar_length d n s (by omega)

/-- C4 counterexample: on the input É é the normalized text is a palindrome
under Unicode-wide case insensitivity, but check_for_palindrome returns
false because its comparison folds ASCII letters only. -/
theorem check_for_palindrome_not_unicode_ci :
    ¬ (check_for_palindrome ['É', 'é'] = true ↔ palindrome_per_claim ['É', 'é']) := by
  unfold palindrome_per_claim
  decide

/-- C4 (amended): check_for_palindrome returns true exactly when the string
obtained by discarding non-alphanumeric scalar values equals its reversed
form under ASCII-only case-insensitive comparison (non-ASCII scalar values
are compared exactly). -/
theorem check_for_palindrome_iff_ascii_ci (s : List Char) :
    check_for_palindrome s = true ↔
      (s.filter is_alphanumeric).map to_ascii_lowercase =
        ((s.filter is_alphanumeric).map to_ascii_lowercase).reverse := by
  simp only [check_for_palindrome, eq_ignore_ascii_case, string_reverse,
    List.map_reverse, decide_eq_true_eq]

/-- C5: whenever split_keeping_delimiter returns at all, every returned
segment ends with the delimiter and the concatenation of the segments is
the prefix of the input through the last delimiter occurrence; but for a
multi-byte delimiter that occurs in the input the function panics instead
of returning (first conjunct evaluates the failing input x é). -/
theorem split_keeping_delimiter_segments :
    split_keeping_delimiter ['x', 'é'] 'é' = none ∧
    ∀ (s : List Char) (d : Char) (out : List (List Char)),
      split_keeping_delimiter s d = some out →
      (∀ seg ∈ out, seg.getLast? = some d) ∧
      out.flatten = prefixThroughLast d s := by
  constructor
  · decide
  · intro s d out h
    by_cases hmem : d ∈ s
    · by_cases hd : len_utf8 d < 2
      · have hd1 : len_utf8 d = 1 := by
          have := len_utf8_pos d
          omega
        rw [split_keeping_delimiter_single s d hd1, Option.some_inj] at h
        subst h
        refine ⟨skdChars_getLast d s [], ?_⟩
        rw [skdChars_flatten d s [], if_pos hmem]
        rfl
      · have := split_keeping_delimiter_wide s d (by omega) hmem
        rw [this] at h
        exact absurd h (by simp)
    · have h2 := skdLoop_no_match s d s 0 0 [] hmem
      have h3 : split_keeping_delimiter s d = some [] := by
        simpa [split_keeping_delimiter, char_indices] using h2
      rw [h3, Option.some_inj] at h
      subst h
      refine ⟨by simp, ?_⟩
      rw [List.flatten_nil, Eq.comm, prefixThroughLast_eq_nil]
      exact hmem

/-- C5 witness: a successful run on a b with a one-byte delimiter. -/
theorem split_keeping_delimiter_segments_witness :
    (∀ seg ∈ [['a', ',']], seg.getLast? = some ',') ∧
    [['a', ',']].flatten = prefixThroughLast ',' ['a', ','] :=
  split_keeping_delimiter_segments.2 ['a', ','] ',' [['a', ',']] (by decide)

/-- C6: when the delimiter does not occur in the input,
split_keeping_delimiter returns the empty sequence (some [] models a
normal return), regardless of the input's length. -/
theorem split_keeping_delimiter_no_occurrence (s : List Char) (d : Char) (h : d ∉ s) :
    split_keeping_delimiter s d = some [] := by
  have h2 := skdLoop_no_match s d s 0 0 [] h
  simpa [split_keeping_delimiter, char_indices] using h2

/-- C6 witness: a comma never occurs in abc. -/
theorem split_keeping_delimiter_no_occurrence_witness :
    split_keeping_delimiter ['a', 'b', 'c'] ',' = some [] :=
  split_keeping_delimiter_no_occurrence ['a', 'b', 'c'] ',' (by decide)

/-- C7: with n equal to the number of delimiter occurrences plus one,
split_into_n_parts is the ordinary split: concatenating its segments with
the delimiter re-inserted reconstructs the input, and no segment contains
the delimiter (so segments are exactly the maximal delimiter-free runs, in
scan order, with empty segments kept). -/
theorem split_into_n_parts_expected_count (s : List Char) (d : Char) :
    split_into_n_parts s d ((s.filter (fun x => x == d)).length + 1) = splitChar d s ∧
    interD d (splitChar d s) = s ∧
    ∀ seg ∈ splitChar d s, d ∉ seg := by
  refine ⟨?_, interD_splitChar d s, not_mem_splitChar d s⟩
  simp [split_into_n_parts]

/-- C7 witness: instantiation on a,b with the expected count 2. -/
theorem split_into_n_parts_expected_count_witness :
    split_into_n_parts ['a', ',', 'b'] ',' 2 = splitChar ',' ['a', ',', 'b'] ∧
    interD ',' (splitChar ',' ['a', ',', 'b']) = ['a', ',', 'b'] ∧
    ∀ seg ∈ splitChar ',' ['a', ',', 'b'], ',' ∉ seg :=
  split_into_n_parts_expected_count ['a', ',', 'b'] ','

/-- C8: with an empty delimiter set, split_on_delimiters returns the whole
input as a single segment when the input is nonempty, and the empty
sequence when the input is empty. -/
theorem split_on_delimiters_empty_delims (s : List Char) :
    split_on_delimiters s [] = some (if s.isEmpty then [] else [s]) := by
  cases s with
  | nil => decide
  | cons c cs =>
    have hpos : 0 < byteLen (c :: cs) := by
      have := len_utf8_pos c
      simp [byteLen]
      omega
    simp [split_on_delimiters, sodLoop_empty_delims, hpos, byteDrop]

/-- C9: each owned-form splitting function returns exactly the segments of
its borrowing counterpart (as owned copies), element for element. -/
theorem owned_forms_agree (s delims : List Char) (d : Char) (n : Nat) :
    split_on_delimiters_returns_owned s delims = split_on_delimiters s delims ∧
    split_keeping_delimiter_returns_owned s d = split_keeping_delimiter s d ∧
    split_into_n_parts_returns_owned s d n = split_into_n_parts s d n := by
  refine ⟨?_, ?_, ?_⟩
  · simp only [split_on_delimiters_returns_owned, split_on_delimiters,
      sodOwnedLoop_eq_sodLoop, string_from]
  · simp only [split_keeping_delimiter_returns_owned, split_keeping_delimiter,
      skdOwnedLoop_eq_skdLoop]
  · have hid : string_from = fun t : List Char => t := rfl
    simp only [split_into_n_parts_returns_owned, split_into_n_parts, hid,
      List.map_id']

/-- C10: string_reverse is an involution on scalar-value sequences, and
check_for_palindrome is invariant under reversing its input. -/
theorem string_reverse_involution (s : List Char) :
    string_reverse (string_reverse s) = s ∧
    check_for_palindrome (string_reverse s) = check_for_palindrome s := by
  constructor
  · simp [string_reverse]
  · simp only [check_for_palindrome, string_reverse, eq_ignore_ascii_case,
      List.filter_reverse, List.map_reverse, List.reverse_reverse]
    rw [decide_eq_decide]
    exact eq_comm
